import Mathlib

/-!
Verification of the Simpleblock blockchain engine (`blockchain.py`).

The file embeds the source shallowly:
* SHA-256 is implemented over byte lists (`Nat` values < 256), mirroring
  `hashlib.sha256(...).hexdigest()`; all 32-bit arithmetic is `Nat`
  arithmetic taken modulo `2 ^ 32`.
* `json.dumps(block, sort_keys = True)` is embedded as an explicit
  serializer.  With the block's five keys the sorted key order is fixed:
  `index`, `previous_hash`, `proof`, `timestamp`, `transactions` (and for a
  transaction: `amount`, `recipient`, `sender`); the default separators of
  `json.dumps` are `", "` and `": "`, and strings are escaped exactly as
  CPython's `ensure_ascii` encoder does.
* `time()` returns a float that only ever enters the semantics through its
  JSON rendering inside `Blockchain.hash`; a block's `timestamp` is
  therefore modelled by that rendered numeric token (a `String`), supplied
  as an explicit input wherever the source calls `time()`.
* The Python `while` loop of `proof_of_work` is unbounded; it is embedded
  as a fuel-indexed search returning `Option Nat`.
* `self.chain[-1]` raises `IndexError` on an empty list; `last_block`
  therefore returns an `Option Block`, `none` marking the raised error.
-/

/-- The modulus `2 ^ 32` for SHA-256 word arithmetic. -/
def w32 : Nat := 4294967296

/-- Right rotation of a 32-bit word. -/
def rotr (n x : Nat) : Nat := ((x >>> n) ||| (x <<< (32 - n))) % w32

/-- SHA-256 `Ch` function. -/
def shaCh (x y z : Nat) : Nat := (x &&& y) ^^^ ((x ^^^ 4294967295) &&& z)

/-- SHA-256 `Maj` function. -/
def shaMaj (x y z : Nat) : Nat := (x &&& y) ^^^ (x &&& z) ^^^ (y &&& z)

/-- SHA-256 big sigma 0. -/
def bsig0 (x : Nat) : Nat := rotr 2 x ^^^ rotr 13 x ^^^ rotr 22 x

/-- SHA-256 big sigma 1. -/
def bsig1 (x : Nat) : Nat := rotr 6 x ^^^ rotr 11 x ^^^ rotr 25 x

/-- SHA-256 small sigma 0. -/
def ssig0 (x : Nat) : Nat := rotr 7 x ^^^ rotr 18 x ^^^ (x >>> 3)

/-- SHA-256 small sigma 1. -/
def ssig1 (x : Nat) : Nat := rotr 17 x ^^^ rotr 19 x ^^^ (x >>> 10)

/-- The 64 SHA-256 round constants of FIPS 180-4, in decimal. -/
def shaK : List Nat :=
  [1116352408, 1899447441, 3049323471, 3921009573, 961987163,
   1508970993, 2453635748, 2870763221, 3624381080, 310598401,
   607225278, 1426881987, 1925078388, 2162078206, 2614888103,
   3248222580, 3835390401, 4022224774, 264347078, 604807628,
   770255983, 1249150122, 1555081692, 1996064986, 2554220882,
   2821834349, 2952996808, 3210313671, 3336571891, 3584528711,
   113926993, 338241895, 666307205, 773529912, 1294757372,
   1396182291, 1695183700, 1986661051, 2177026350, 2456956037,
   2730485921, 2820302411, 3259730800, 3345764771, 3516065817,
   3600352804, 4094571909, 275423344, 430227734, 506948616,
   659060556, 883997877, 958139571, 1322822218, 1537002063,
   1747873779, 1955562222, 2024104815, 2227730452, 2361852424,
   2428436474, 2756734187, 3204031479, 3329325298]

/-- The eight 32-bit working variables of SHA-256. -/
structure SHAState where
  a : Nat
  b : Nat
  c : Nat
  d : Nat
  e : Nat
  f : Nat
  g : Nat
  h : Nat
deriving Repr, DecidableEq

/-- The SHA-256 initial hash value of FIPS 180-4, in decimal. -/
def shaInit : SHAState :=
  ⟨1779033703, 3144134277, 1013904242, 2773480762,
   1359893119, 2600822924, 528734635, 1541459225⟩

/-- One SHA-256 compression round; the pair carries `(Wᵢ, Kᵢ)`. -/
def shaRound (s : SHAState) (wk : Nat × Nat) : SHAState :=
  let t1 := (s.h + bsig1 s.e + shaCh s.e s.f s.g + wk.2 + wk.1) % w32
  let t2 := (bsig0 s.a + shaMaj s.a s.b s.c) % w32
  ⟨(t1 + t2) % w32, s.a, s.b, s.c, (s.d + t1) % w32, s.e, s.f, s.g⟩

/-- Pointwise sum of two states modulo `2 ^ 32`. -/
def addState (s t : SHAState) : SHAState :=
  ⟨(s.a + t.a) % w32, (s.b + t.b) % w32, (s.c + t.c) % w32, (s.d + t.d) % w32,
   (s.e + t.e) % w32, (s.f + t.f) % w32, (s.g + t.g) % w32, (s.h + t.h) % w32⟩

/-- Big-endian bytes of `n`, width `k`. -/
def beBytes : Nat → Nat → List Nat
  | 0, _ => []
  | k + 1, n => beBytes k (n >>> 8) ++ [n % 256]

/-- SHA-256 padding: append `0x80`, zeros, and the 64-bit big-endian bit length. -/
def padMsg (msg : List Nat) : List Nat :=
  msg ++ [128] ++ List.replicate ((119 - msg.length % 64) % 64) 0 ++ beBytes 8 (8 * msg.length)

/-- Group bytes into words: four big-endian bytes each. -/
def wordsOf : List Nat → List Nat
  | b0 :: b1 :: b2 :: b3 :: rest => (((b0 * 256 + b1) * 256 + b2) * 256 + b3) :: wordsOf rest
  | _ => []

/-- Extend the message schedule; `acc` holds the words produced so far, newest first. -/
def extendSchedule : Nat → List Nat → List Nat
  | 0, acc => acc.reverse
  | k + 1, acc =>
    let w := (acc.getD 15 0 + ssig0 (acc.getD 14 0) + acc.getD 6 0 + ssig1 (acc.getD 1 0)) % w32
    extendSchedule k (w :: acc)

/-- The 64-word message schedule of one 64-byte chunk. -/
def schedule (chunk : List Nat) : List Nat :=
  extendSchedule 48 (wordsOf chunk).reverse

/-- Compress one 64-byte chunk into the running state. -/
def processChunk (s : SHAState) (chunk : List Nat) : SHAState :=
  addState s (((schedule chunk).zip shaK).foldl shaRound s)

/-- Split a byte list into 64-byte chunks (fuel-indexed for structural recursion). -/
def toChunksAux : Nat → List Nat → List (List Nat)
  | 0, _ => []
  | k + 1, l => l.take 64 :: toChunksAux k (l.drop 64)

/-- Split a byte list into its 64-byte chunks. -/
def toChunks (l : List Nat) : List (List Nat) := toChunksAux (l.length / 64) l

/-- Lowercase hexadecimal digit of a value below 16. -/
def hexDigit (n : Nat) : Char := if n < 10 then Char.ofNat (48 + n) else Char.ofNat (87 + n)

/-- Eight lowercase hex digits of a 32-bit word, most significant first. -/
def hex8 (x : Nat) : String :=
  String.mk ((List.range 8).map fun i => hexDigit ((x >>> (4 * (7 - i))) % 16))

/-- Hex rendering of a final SHA-256 state: eight words of eight digits. -/
def digestHex (s : SHAState) : String :=
  hex8 s.a ++ hex8 s.b ++ hex8 s.c ++ hex8 s.d ++ hex8 s.e ++ hex8 s.f ++ hex8 s.g ++ hex8 s.h

/-- SHA-256 lowercase hex digest of a byte list: `hashlib.sha256(bytes).hexdigest()`. -/
def sha256hex (msg : List Nat) : String :=
  digestHex ((toChunks (padMsg msg)).foldl processChunk shaInit)

/-- UTF-8 bytes of one character, as Python `str.encode` produces them. -/
def utf8Char (c : Char) : List Nat :=
  let n := c.toNat
  if n < 128 then [n]
  else if n < 2048 then [192 + n / 64, 128 + n % 64]
  else if n < 65536 then [224 + n / 4096, 128 + n / 64 % 64, 128 + n % 64]
  else [240 + n / 262144, 128 + n / 4096 % 64, 128 + n / 64 % 64, 128 + n % 64]

/-- UTF-8 encoding of a string: Python `s.encode()`. -/
def utf8Bytes (s : String) : List Nat := (s.data.map utf8Char).flatten

/-- SHA-256 lowercase hex digest of a string's UTF-8 encoding:
`hashlib.sha256(s.encode()).hexdigest()`. -/
def sha256hexOfString (s : String) : String := sha256hex (utf8Bytes s)

/-- Four lowercase hex digits, as CPython's `\u` escapes render them. -/
def hexDigit4 (n : Nat) : String :=
  String.mk [hexDigit (n / 4096 % 16), hexDigit (n / 256 % 16), hexDigit (n / 16 % 16), hexDigit (n % 16)]

/-- Escape of one character inside a JSON string, exactly as CPython's
`json.dumps` with the default `ensure_ascii = True` produces it: the short
escapes for quote, backslash and the five control characters that have one,
`\u00xx` for the remaining control characters, ASCII printable characters
verbatim, `\uxxxx` for other characters of the Basic Multilingual Plane and
a surrogate pair for characters beyond it. -/
def escapeChar (c : Char) : String :=
  if c = '"' then "\\\""
  else if c = '\\' then "\\\\"
  else if c = '\n' then "\\n"
  else if c = '\t' then "\\t"
  else if c = '\r' then "\\r"
  else if c = '\x08' then "\\b"
  else if c = '\x0c' then "\\f"
  else if c.toNat < 32 then "\\u" ++ hexDigit4 c.toNat
  else if c.toNat < 127 then String.mk [c]
  else if c.toNat < 65536 then "\\u" ++ hexDigit4 c.toNat
  else
    let v := c.toNat - 65536
    "\\u" ++ hexDigit4 (55296 + v / 1024) ++ "\\u" ++ hexDigit4 (56320 + v % 1024)

/-- JSON rendering of a string literal, quotes included. -/
def jsonString (s : String) : String :=
  "\"" ++ String.join (s.data.map escapeChar) ++ "\""

/-- A transaction: the dict built by `new_transaction` from `sender`,
`recipient` and `amount`.  The source leaves `amount` unconstrained
("<num>"); it is modelled as an integer, JSON-rendered in decimal. -/
structure Transaction where
  sender : String
  recipient : String
  amount : Int
deriving Repr, DecidableEq

/-- The value stored under a block's `previous_hash` key: the genesis
sentinel integer `1`, a digest string passed by the caller, or Python's
`None` (the parameter's default). -/
inductive PrevHash where
  | int (n : Int)
  | str (s : String)
  | null
deriving Repr, DecidableEq

/-- A block: the dict built by `new_block`.  `timestamp` is the JSON
rendering of the float returned by `time()` (see the file header). -/
structure Block where
  index : Nat
  timestamp : String
  transactions : List Transaction
  proof : Int
  previous_hash : PrevHash
deriving Repr, DecidableEq

/-- JSON rendering of a transaction dict under `sort_keys = True`: keys in
the order `amount`, `recipient`, `sender`, separators `", "` and `": "`. -/
def Transaction.toJson (t : Transaction) : String :=
  "\x7b\"amount\": " ++ toString t.amount ++ ", \"recipient\": " ++ jsonString t.recipient
    ++ ", \"sender\": " ++ jsonString t.sender ++ "\x7d"

/-- JSON rendering of a `previous_hash` value (`None` renders as `null`). -/
def PrevHash.toJson : PrevHash → String
  | .int n => toString n
  | .str s => jsonString s
  | .null => "null"

/-- JSON rendering of a block dict under `sort_keys = True`: keys in the
order `index`, `previous_hash`, `proof`, `timestamp`, `transactions`. -/
def Block.toJson (b : Block) : String :=
  "\x7b\"index\": " ++ toString b.index
    ++ ", \"previous_hash\": " ++ b.previous_hash.toJson
    ++ ", \"proof\": " ++ toString b.proof
    ++ ", \"timestamp\": " ++ b.timestamp
    ++ ", \"transactions\": [" ++ String.intercalate ", " (b.transactions.map Transaction.toJson)
    ++ "]\x7d"

/-- The ledger object: its `chain` and `current_transactions` lists. -/
structure Blockchain where
  chain : List Block
  current_transactions : List Transaction
deriving Repr, DecidableEq

/-- `Blockchain.hash`: `sha256(json.dumps(block, sort_keys = True).encode()).hexdigest()`. -/
def Blockchain.hash (block : Block) : String :=
  sha256hexOfString block.toJson

/-- `Blockchain.new_block`: builds the block dict from the next index, the
timestamp, the current transaction pool, the given proof and the given
`previous_hash`; resets the pool to empty and appends the block to the
chain.  Returns the block together with the updated ledger state. -/
def Blockchain.new_block (bc : Blockchain) (ts : String) (proof : Int)
    (previous_hash : PrevHash) : Block × Blockchain :=
  let block : Block :=
    { index := bc.chain.length + 1
      timestamp := ts
      transactions := bc.current_transactions
      proof := proof
      previous_hash := previous_hash }
  (block, { chain := bc.chain ++ [block], current_transactions := [] })

/-- `Blockchain.new_block` called without a `previous_hash` argument: the
parameter's default is `None`. -/
def Blockchain.new_block_default (bc : Blockchain) (ts : String) (proof : Int) :
    Block × Blockchain :=
  bc.new_block ts proof PrevHash.null

/-- `Blockchain.__init__`: empty chain and pool, then
`new_block(previous_hash = 1, proof = 100)` seeds the genesis block.
`ts` is the rendering of the `time()` value observed at construction. -/
def Blockchain.init (ts : String) : Blockchain :=
  (Blockchain.new_block ⟨[], []⟩ ts 100 (PrevHash.int 1)).2

/-- `Blockchain.last_block`: `self.chain[-1]`; `none` models the
`IndexError` raised on an empty chain. -/
def Blockchain.last_block (bc : Blockchain) : Option Block :=
  bc.chain.getLast?

/-- `Blockchain.new_transaction`: appends the transaction dict to
`current_transactions` and returns `last_block["index"] + 1` (computed on
the updated state, whose chain is unchanged), paired with that state. -/
def Blockchain.new_transaction (bc : Blockchain) (sender recipient : String)
    (amount : Int) : Option Nat × Blockchain :=
  let bc2 : Blockchain :=
    { chain := bc.chain
      current_transactions := bc.current_transactions ++ [⟨sender, recipient, amount⟩] }
  (bc2.last_block.map fun b => b.index + 1, bc2)

/-- Python `s[:n]` on a string: the first `n` characters. -/
def strSlice (s : String) (n : Nat) : String := String.mk (s.data.take n)

/-- `Blockchain.is_valid_proof`: hash the concatenation
`f"{proof}{last_proof}"` (proof first) and test whether the first four hex
digest characters equal `"0000"`. -/
def Blockchain.is_valid_proof (last_proof proof : Int) : Bool :=
  let encoded := toString proof ++ toString last_proof
  let hashed := sha256hexOfString encoded
  strSlice hashed 4 == "0000"

/-- The `while` loop of `Blockchain.proof_of_work`, fuel-indexed: starting
at the given candidate, return the first valid proof, or `none` when the
fuel runs out first. -/
def Blockchain.proof_of_work_from (last_proof : Int) : Nat → Nat → Option Nat
  | 0, _ => none
  | fuel + 1, proof =>
    if Blockchain.is_valid_proof last_proof (Int.ofNat proof) then some proof
    else Blockchain.proof_of_work_from last_proof fuel (proof + 1)

/-- `Blockchain.proof_of_work`: the search starting at `proof = 0`. -/
def Blockchain.proof_of_work (fuel : Nat) (last_proof : Int) : Option Nat :=
  Blockchain.proof_of_work_from last_proof fuel 0

/-- A character is a lowercase hexadecimal digit: `0`–`9` or `a`–`f`. -/
def isLowerHexDigit (c : Char) : Bool :=
  (48 ≤ c.toNat && c.toNat ≤ 57) || (97 ≤ c.toNat && c.toNat ≤ 102)

lemma hexDigit_lower : ∀ n < 16, isLowerHexDigit (hexDigit n) = true := by decide

lemma hex8_length (x : Nat) : (hex8 x).length = 8 := by
  simp [hex8, String.length_mk]

lemma hex8_chars (x : Nat) : ∀ c ∈ (hex8 x).data, isLowerHexDigit c = true := by
  intro c hc
  simp only [hex8, String.mk] at hc
  obtain ⟨i, _, rfl⟩ := List.mem_map.mp hc
  exact hexDigit_lower _ (Nat.mod_lt _ (by norm_num))

lemma digestHex_length (s : SHAState) : (digestHex s).length = 64 := by
  simp [digestHex, String.length_append, hex8_length]

lemma digestHex_chars (s : SHAState) : ∀ c ∈ (digestHex s).data, isLowerHexDigit c = true := by
  intro c hc
  simp only [digestHex, String.data_append, List.mem_append] at hc
  rcases hc with ((((((h | h) | h) | h) | h) | h) | h) | h <;> exact hex8_chars _ _ h

lemma sha256hex_length (msg : List Nat) : (sha256hex msg).length = 64 :=
  digestHex_length _

lemma sha256hex_chars (msg : List Nat) : ∀ c ∈ (sha256hex msg).data, isLowerHexDigit c = true :=
  digestHex_chars _

/-- States reachable from construction through the public API: any number
of `new_transaction` calls and `new_block` calls with arbitrary arguments
(a caller may pass any `previous_hash`, or omit it, since `new_block` does
not validate it). -/
inductive Reachable : Blockchain → Prop where
  | init (ts : String) : Reachable (Blockchain.init ts)
  | tx (bc : Blockchain) (s r : String) (a : Int) :
      Reachable bc → Reachable (bc.new_transaction s r a).2
  | mint (bc : Blockchain) (ts : String) (p : Int) (ph : PrevHash) :
      Reachable bc → Reachable (bc.new_block ts p ph).2

/-- States reachable when every minted block is linked by its caller: each
`new_block` call passes `previous_hash = Blockchain.hash(last_block)`,
exactly as the mining flow described by the source's docstrings does. -/
inductive ReachableLinked : Blockchain → Prop where
  | init (ts : String) : ReachableLinked (Blockchain.init ts)
  | tx (bc : Blockchain) (s r : String) (a : Int) :
      ReachableLinked bc → ReachableLinked (bc.new_transaction s r a).2
  | mint (bc : Blockchain) (ts : String) (p : Int) (lb : Block) :
      ReachableLinked bc → bc.last_block = some lb →
      ReachableLinked (bc.new_block ts p (PrevHash.str (Blockchain.hash lb))).2

/-- Every reachable state ends in a block whose `index` equals the chain
length (so the chain is non-empty). -/
lemma reachable_last_index (bc : Blockchain) (h : Reachable bc) :
    ∃ l b, bc.chain = l ++ [b] ∧ b.index = bc.chain.length := by
  induction h with
  | init ts => exact ⟨[], _, rfl, rfl⟩
  | tx bc s r a _ ih => exact ih
  | mint bc ts p ph _ _ =>
    refine ⟨bc.chain, _, rfl, ?_⟩
    simp [Blockchain.new_block]

lemma reachable_chain_ne_nil (bc : Blockchain) (h : Reachable bc) : bc.chain ≠ [] := by
  obtain ⟨l, b, hc, _⟩ := reachable_last_index bc h
  simp [hc]

/-- Linkage property of a block list: every block is followed only by a
block whose `previous_hash` is the canonical hash of its predecessor. -/
def LinkedChain (l : List Block) : Prop :=
  ∀ (i : Nat) (b b2 : Block), l[i]? = some b → l[i + 1]? = some b2 →
    b2.previous_hash = PrevHash.str (Blockchain.hash b)

/-- Linkage property of a ledger state's chain. -/
def ChainLinked (bc : Blockchain) : Prop := LinkedChain bc.chain

lemma linkedChain_append (l : List Block) (lb blk : Block) (hlast : l.getLast? = some lb)
    (hl : LinkedChain l) (hb : blk.previous_hash = PrevHash.str (Blockchain.hash lb)) :
    LinkedChain (l ++ [blk]) := by
  intro i b b2 h1 h2
  rcases lt_trichotomy (i + 1) l.length with hlt | heq | hgt
  · rw [List.getElem?_append_left (by omega)] at h1
    rw [List.getElem?_append_left hlt] at h2
    exact hl i b b2 h1 h2
  · have hi : i < l.length := by omega
    rw [List.getElem?_append_left hi] at h1
    rw [List.getElem?_append_right (by omega)] at h2
    have hb2 : b2 = blk := by
      rw [heq] at h2
      simp at h2
      exact h2.symm
    have hbl : b = lb := by
      rw [List.getLast?_eq_getElem? l] at hlast
      have hil : i = l.length - 1 := by omega
      rw [hil, hlast] at h1
      exact (Option.some.inj h1).symm
    rw [hb2, hbl]
    exact hb
  · rw [List.getElem?_append_right (by omega)] at h2
    have hk : (i + 1) - l.length ≥ 1 := by omega
    have hnone : ([blk] : List Block)[(i + 1) - l.length]? = none := by
      rw [List.getElem?_eq_none]
      simpa using hk
    rw [hnone] at h2
    exact Option.noConfusion h2

lemma chainLinked_new_block (bc : Blockchain) (ts : String) (p : Int) (lb : Block)
    (hlast : bc.last_block = some lb) (hl : ChainLinked bc) :
    ChainLinked (bc.new_block ts p (PrevHash.str (Blockchain.hash lb))).2 := by
  have : (bc.new_block ts p (PrevHash.str (Blockchain.hash lb))).2.chain =
      bc.chain ++ [(bc.new_block ts p (PrevHash.str (Blockchain.hash lb))).1] := rfl
  unfold ChainLinked
  rw [this]
  exact linkedChain_append bc.chain lb _ hlast hl rfl

lemma linkedChain_singleton (b : Block) : LinkedChain [b] := by
  intro i b1 b2 _ h2
  have : ([b] : List Block)[i + 1]? = none := by
    rw [List.getElem?_eq_none]
    simp
  rw [this] at h2
  exact Option.noConfusion h2

/-- C1 (amended): the chaining invariant holds for every state reachable
when each minted block is given `previous_hash = Blockchain.hash` of the
then-current last block: in such states every non-genesis block's
`previous_hash` is the canonical hash of its predecessor, the hash being
computed over the exact serialized predecessor, its own `previous_hash`
field included. -/
theorem chain_linkage_invariant (bc : Blockchain) (h : ReachableLinked bc) :
    ChainLinked bc := by
  induction h with
  | init ts => exact linkedChain_singleton _
  | tx bc s r a _ ih => exact ih
  | mint bc ts p lb _ hlast ih => exact chainLinked_new_block bc ts p lb hlast ih

/-- Witness for `chain_linkage_invariant`: a two-block ledger minted with
the correct predecessor hash satisfies the invariant. -/
theorem chain_linkage_invariant_witness :
    ChainLinked ((Blockchain.init "11.25").new_block "12.5" 7
      (PrevHash.str (Blockchain.hash ⟨1, "11.25", [], 100, PrevHash.int 1⟩))).2 :=
  chain_linkage_invariant _
    (ReachableLinked.mint (Blockchain.init "11.25") "12.5" 7
      ⟨1, "11.25", [], 100, PrevHash.int 1⟩ (ReachableLinked.init "11.25") rfl)

/-- C1 as stated is false on the code: `new_block` accepts any
`previous_hash` (default `None`), so a reachable state can hold a
non-genesis block whose `previous_hash` is `None`, which is no hash at
all — in particular not the canonical hash of its predecessor. -/
theorem chain_linkage_cex :
    Reachable ((Blockchain.init "11.25").new_block_default "12.5" 7).2 ∧
    ∃ g b2, ((Blockchain.init "11.25").new_block_default "12.5" 7).2.chain = [g, b2] ∧
      b2.previous_hash = PrevHash.null ∧
      ∀ s : String, b2.previous_hash ≠ PrevHash.str s := by
  refine ⟨Reachable.mint (Blockchain.init "11.25") "12.5" 7 PrevHash.null
    (Reachable.init "11.25"), ⟨_, _, rfl, rfl, fun s h => PrevHash.noConfusion h⟩⟩

/-- C2: `is_valid_proof last_proof proof` holds exactly when the first 4
hex characters of the SHA-256 digest of the decimal string of `proof`
followed by the decimal string of `last_proof` are all `'0'`. -/
theorem is_valid_proof_iff (last_proof proof : Int) :
    Blockchain.is_valid_proof last_proof proof = true ↔
      ∀ c ∈ (sha256hexOfString (toString proof ++ toString last_proof)).data.take 4,
        c = '0' := by
  have hlen : ((sha256hexOfString (toString proof ++ toString last_proof)).data.take 4).length
      = 4 := by
    rw [List.length_take]
    have h64 := sha256hex_length (utf8Bytes (toString proof ++ toString last_proof))
    rw [String.length] at h64
    rw [show sha256hexOfString (toString proof ++ toString last_proof) =
      sha256hex (utf8Bytes (toString proof ++ toString last_proof)) from rfl, h64]
    omega
  unfold Blockchain.is_valid_proof strSlice
  rw [beq_iff_eq]
  constructor
  · intro h c hc
    have hd : (sha256hexOfString (toString proof ++ toString last_proof)).data.take 4
        = "0000".data := congrArg String.data h
    rw [hd, show ("0000".data : List Char) = List.replicate 4 '0' from rfl] at hc
    exact List.eq_of_mem_replicate hc
  · intro h
    have : (sha256hexOfString (toString proof ++ toString last_proof)).data.take 4
        = List.replicate 4 '0' := List.eq_replicate_iff.mpr ⟨hlen, h⟩
    rw [this]
    rfl

/-- Witness for `is_valid_proof_iff` at the pair `(100, 52838)`. -/
theorem is_valid_proof_iff_witness :
    Blockchain.is_valid_proof 100 52838 = true ↔
      ∀ c ∈ (sha256hexOfString (toString (52838 : Int) ++ toString (100 : Int))).data.take 4,
        c = '0' :=
  is_valid_proof_iff 100 52838

lemma proof_of_work_from_spec (last_proof : Int) :
    ∀ fuel start : Nat,
      (∃ k, k < fuel ∧ Blockchain.is_valid_proof last_proof (Int.ofNat (start + k)) = true) →
      ∃ r, Blockchain.proof_of_work_from last_proof fuel start = some r ∧ start ≤ r ∧
        Blockchain.is_valid_proof last_proof (Int.ofNat r) = true ∧
        ∀ q, start ≤ q → q < r → Blockchain.is_valid_proof last_proof (Int.ofNat q) = false := by
  intro fuel
  induction fuel with
  | zero =>
    rintro start ⟨k, hk, _⟩
    omega
  | succ n ih =>
    rintro start ⟨k, hk, hv⟩
    by_cases hs : Blockchain.is_valid_proof last_proof (Int.ofNat start) = true
    · refine ⟨start, ?_, Nat.le_refl _, hs, fun q h1 h2 => absurd h1 (by omega)⟩
      simp only [Blockchain.proof_of_work_from]
      rw [if_pos hs]
    · have hsf : Blockchain.is_valid_proof last_proof (Int.ofNat start) = false := by
        revert hs
        cases Blockchain.is_valid_proof last_proof (Int.ofNat start) <;> simp
      have hk0 : k ≠ 0 := by
        rintro rfl
        rw [Nat.add_zero] at hv
        exact hs hv
      obtain ⟨k2, rfl⟩ := Nat.exists_eq_succ_of_ne_zero hk0
      obtain ⟨r, hr, hle, hval, hmin⟩ := ih (start + 1)
        ⟨k2, by omega, by rw [show start + 1 + k2 = start + (k2 + 1) by omega]; exact hv⟩
      refine ⟨r, ?_, by omega, hval, ?_⟩
      · simp only [Blockchain.proof_of_work_from, hsf]
        simpa using hr
      · intro q h1 h2
        rcases Nat.eq_or_lt_of_le h1 with rfl | h1'
        · exact hsf
        · exact hmin q h1' h2

/-- C3: whenever some candidate is valid for `last_proof`, the brute-force
search that starts at `proof = 0` and increments by 1 terminates (here:
fuel one past a valid candidate suffices) and returns the smallest valid
non-negative integer. -/
theorem proof_of_work_finds_least (last_proof : Int) (p : Nat)
    (h : Blockchain.is_valid_proof last_proof (Int.ofNat p) = true) :
    ∃ r, Blockchain.proof_of_work (p + 1) last_proof = some r ∧ r ≤ p ∧
      Blockchain.is_valid_proof last_proof (Int.ofNat r) = true ∧
      ∀ q, q < r → Blockchain.is_valid_proof last_proof (Int.ofNat q) = false := by
  obtain ⟨r, hr, _, hval, hmin⟩ :=
    proof_of_work_from_spec last_proof (p + 1) 0 ⟨p, by omega, by simpa using h⟩
  refine ⟨r, hr, ?_, hval, fun q hq => hmin q (Nat.zero_le _) hq⟩
  by_contra hgt
  rw [hmin p (Nat.zero_le _) (by omega)] at h
  exact Bool.false_ne_true h

/-- Witness for `proof_of_work_finds_least`: `52838` is valid for
`last_proof = 100`, so the search with fuel `52839` returns the least
valid proof. -/
theorem proof_of_work_finds_least_witness :
    ∃ r, Blockchain.proof_of_work (52838 + 1) 100 = some r ∧ r ≤ 52838 ∧
      Blockchain.is_valid_proof 100 (Int.ofNat r) = true ∧
      ∀ q, q < r → Blockchain.is_valid_proof 100 (Int.ofNat q) = false :=
  proof_of_work_finds_least 100 52838 (by decide)

lemma Transaction.eta (t : Transaction) :
    (⟨t.sender, t.recipient, t.amount⟩ : Transaction) = t := rfl

/-- Repeated `new_transaction` calls, one per listed transaction, keeping
only the evolving ledger state. -/
def submit_many (bc : Blockchain) (txs : List Transaction) : Blockchain :=
  txs.foldl (fun b t => (b.new_transaction t.sender t.recipient t.amount).2) bc

lemma submit_many_chain_pool (bc : Blockchain) (txs : List Transaction) :
    (submit_many bc txs).chain = bc.chain ∧
    (submit_many bc txs).current_transactions = bc.current_transactions ++ txs := by
  induction txs generalizing bc with
  | nil => simp [submit_many]
  | cons t ts ih =>
    have step : submit_many bc (t :: ts)
        = submit_many (bc.new_transaction t.sender t.recipient t.amount).2 ts := rfl
    obtain ⟨h1, h2⟩ := ih (bc.new_transaction t.sender t.recipient t.amount).2
    rw [step]
    refine ⟨h1, ?_⟩
    rw [h2]
    simp [Blockchain.new_transaction, Transaction.eta]

/-- C4: starting from a state with an empty pending pool, submitting `N`
transactions and then minting one block yields a block holding exactly
those `N` transactions in submission order, and leaves the pool empty. -/
theorem mint_moves_entire_pool (bc : Blockchain) (hpool : bc.current_transactions = [])
    (txs : List Transaction) (ts : String) (p : Int) (ph : PrevHash) :
    ((submit_many bc txs).new_block ts p ph).1.transactions = txs ∧
    ((submit_many bc txs).new_block ts p ph).1.transactions.length = txs.length ∧
    ((submit_many bc txs).new_block ts p ph).2.current_transactions = [] := by
  obtain ⟨_, h2⟩ := submit_many_chain_pool bc txs
  have hb : ((submit_many bc txs).new_block ts p ph).1.transactions
      = (submit_many bc txs).current_transactions := rfl
  rw [hb, h2, hpool]
  exact ⟨rfl, rfl, rfl⟩

/-- Witness for `mint_moves_entire_pool`: one submitted transaction ends
up as the minted block's single transaction and the pool is cleared. -/
theorem mint_moves_entire_pool_witness :
    ((submit_many (Blockchain.init "10.0") [⟨"A", "B", 5⟩]).new_block "11.0" 7
        PrevHash.null).1.transactions = [⟨"A", "B", 5⟩] ∧
    ((submit_many (Blockchain.init "10.0") [⟨"A", "B", 5⟩]).new_block "11.0" 7
        PrevHash.null).1.transactions.length = ([⟨"A", "B", 5⟩] : List Transaction).length ∧
    ((submit_many (Blockchain.init "10.0") [⟨"A", "B", 5⟩]).new_block "11.0" 7
        PrevHash.null).2.current_transactions = [] :=
  mint_moves_entire_pool (Blockchain.init "10.0") rfl [⟨"A", "B", 5⟩] "11.0" 7 PrevHash.null

/-- C5: immediately after construction the chain is exactly the genesis
block: `index` 1, `previous_hash` the sentinel integer 1, `proof` the
sentinel 100, no transactions; and the chain is never empty after
construction — every reachable state has a non-empty chain. -/
theorem construction_seeds_genesis (ts : String) :
    (Blockchain.init ts).chain
      = [{ index := 1, timestamp := ts, transactions := [], proof := 100,
           previous_hash := PrevHash.int 1 }] ∧
    (Blockchain.init ts).chain.length = 1 ∧
    (Blockchain.init ts).chain ≠ [] ∧
    (∀ bc : Blockchain, Reachable bc → bc.chain ≠ []) := by
  refine ⟨rfl, rfl, ?_, reachable_chain_ne_nil⟩
  intro h
  have h1 : (Blockchain.init ts).chain.length = 1 := rfl
  rw [h] at h1
  exact Nat.noConfusion h1

/-- Witness for `construction_seeds_genesis` at a concrete construction
timestamp. -/
theorem construction_seeds_genesis_witness :
    (Blockchain.init "7.25").chain
      = [{ index := 1, timestamp := "7.25", transactions := [], proof := 100,
           previous_hash := PrevHash.int 1 }] ∧
    (Blockchain.init "7.25").chain.length = 1 ∧
    (Blockchain.init "7.25").chain ≠ [] ∧
    (∀ bc : Blockchain, Reachable bc → bc.chain ≠ []) :=
  construction_seeds_genesis "7.25"

/-- C6: `Blockchain.hash` always yields a digest of exactly 64 lowercase
hexadecimal characters, and is a pure function of the block's logical
content: blocks with identical fields hash identically (the serialization
fixes the key order lexicographically). -/
theorem canonical_hash_pure_fixed_length (b : Block) :
    (Blockchain.hash b).length = 64 ∧
    (∀ c ∈ (Blockchain.hash b).data, isLowerHexDigit c = true) ∧
    (∀ b2 : Block, b.index = b2.index → b.timestamp = b2.timestamp →
      b.transactions = b2.transactions → b.proof = b2.proof →
      b.previous_hash = b2.previous_hash → Blockchain.hash b = Blockchain.hash b2) := by
  refine ⟨sha256hex_length _, sha256hex_chars _, ?_⟩
  intro b2 h1 h2 h3 h4 h5
  cases b
  cases b2
  simp only at h1 h2 h3 h4 h5
  rw [h1, h2, h3, h4, h5]

/-- Witness for `canonical_hash_pure_fixed_length` at the genesis-shaped
block. -/
theorem canonical_hash_pure_fixed_length_witness :
    (Blockchain.hash ⟨1, "1234.5678", [], 100, PrevHash.int 1⟩).length = 64 ∧
    (∀ c ∈ (Blockchain.hash ⟨1, "1234.5678", [], 100, PrevHash.int 1⟩).data,
      isLowerHexDigit c = true) ∧
    (∀ b2 : Block, (1 : Nat) = b2.index → "1234.5678" = b2.timestamp →
      ([] : List Transaction) = b2.transactions → (100 : Int) = b2.proof →
      PrevHash.int 1 = b2.previous_hash →
      Blockchain.hash ⟨1, "1234.5678", [], 100, PrevHash.int 1⟩ = Blockchain.hash b2) :=
  canonical_hash_pure_fixed_length ⟨1, "1234.5678", [], 100, PrevHash.int 1⟩

/-- C7: in every reachable state `last_block` returns the most recently
appended block; and for an arbitrary ledger state it fails (the modelled
`IndexError`, `none`) exactly when the chain is empty — which no reachable
state is, genesis being seeded at construction. -/
theorem last_block_total_post_construction (bc : Blockchain) (h : Reachable bc) :
    (∃ l b, bc.chain = l ++ [b] ∧ bc.last_block = some b) ∧
    (∀ bc2 : Blockchain, bc2.last_block = none ↔ bc2.chain = []) := by
  constructor
  · obtain ⟨l, b, hc, _⟩ := reachable_last_index bc h
    refine ⟨l, b, hc, ?_⟩
    show bc.chain.getLast? = some b
    rw [hc]
    exact List.getLast?_concat l
  · intro bc2
    show bc2.chain.getLast? = none ↔ bc2.chain = []
    exact List.getLast?_eq_none_iff

/-- Witness for `last_block_total_post_construction` at a freshly
constructed ledger. -/
theorem last_block_total_post_construction_witness :
    (∃ l b, (Blockchain.init "2.5").chain = l ++ [b] ∧
      (Blockchain.init "2.5").last_block = some b) ∧
    (∀ bc2 : Blockchain, bc2.last_block = none ↔ bc2.chain = []) :=
  last_block_total_post_construction (Blockchain.init "2.5") (Reachable.init "2.5")

/-- C8: in every reachable state `new_transaction` returns the current
chain length plus one (the index of the next block to be minted) and
leaves the chain unchanged. -/
theorem submit_transaction_returns_next_index (bc : Blockchain) (h : Reachable bc)
    (s r : String) (a : Int) :
    (bc.new_transaction s r a).1 = some (bc.chain.length + 1) ∧
    (bc.new_transaction s r a).2.chain = bc.chain := by
  obtain ⟨l, b, hc, hidx⟩ := reachable_last_index bc h
  refine ⟨?_, rfl⟩
  have hlast : (bc.new_transaction s r a).2.last_block = some b := by
    show bc.chain.getLast? = some b
    rw [hc]
    exact List.getLast?_concat l
  show ((bc.new_transaction s r a).2.last_block.map fun blk => blk.index + 1)
      = some (bc.chain.length + 1)
  rw [hlast]
  simp [hidx]

/-- Witness for `submit_transaction_returns_next_index`: submitting on a
fresh ledger returns index 2 and keeps the one-block chain. -/
theorem submit_transaction_returns_next_index_witness :
    ((Blockchain.init "3.5").new_transaction "A" "B" 5).1
        = some ((Blockchain.init "3.5").chain.length + 1) ∧
    ((Blockchain.init "3.5").new_transaction "A" "B" 5).2.chain
        = (Blockchain.init "3.5").chain :=
  submit_transaction_returns_next_index (Blockchain.init "3.5") (Reachable.init "3.5") "A" "B" 5

/-- A single public ledger operation with its external inputs. -/
inductive LedgerOp where
  | tx (s r : String) (a : Int)
  | mint (ts : String) (p : Int) (ph : PrevHash)

/-- Apply one operation to a ledger state. -/
def apply_op (bc : Blockchain) : LedgerOp → Blockchain
  | .tx s r a => (bc.new_transaction s r a).2
  | .mint ts p ph => (bc.new_block ts p ph).2

/-- Apply a sequence of operations, left to right. -/
def apply_ops (bc : Blockchain) (ops : List LedgerOp) : Blockchain :=
  ops.foldl apply_op bc

lemma apply_op_chain_extends (bc : Blockchain) (op : LedgerOp) :
    ∃ t, (apply_op bc op).chain = bc.chain ++ t := by
  cases op with
  | tx s r a => exact ⟨[], by simp [apply_op, Blockchain.new_transaction]⟩
  | mint ts p ph => exact ⟨_, rfl⟩

/-- C9: `new_transaction` never changes the chain; `new_block` appends
exactly one block; and along any sequence of public operations the old
chain stays an unchanged prefix, so no previously appended block is ever
mutated or removed. -/
theorem mint_sole_chain_mutator :
    (∀ (bc : Blockchain) (s r : String) (a : Int),
      (bc.new_transaction s r a).2.chain = bc.chain) ∧
    (∀ (bc : Blockchain) (ts : String) (p : Int) (ph : PrevHash),
      (bc.new_block ts p ph).2.chain = bc.chain ++ [(bc.new_block ts p ph).1]) ∧
    (∀ (bc : Blockchain) (ops : List LedgerOp),
      ∃ t, (apply_ops bc ops).chain = bc.chain ++ t) := by
  refine ⟨fun bc s r a => rfl, fun bc ts p ph => rfl, ?_⟩
  intro bc ops
  induction ops generalizing bc with
  | nil => exact ⟨[], by simp [apply_ops]⟩
  | cons op ops ih =>
    obtain ⟨t1, h1⟩ := apply_op_chain_extends bc op
    obtain ⟨t2, h2⟩ := ih (apply_op bc op)
    refine ⟨t1 ++ t2, ?_⟩
    have step : apply_ops bc (op :: ops) = apply_ops (apply_op bc op) ops := rfl
    rw [step, h2, h1, List.append_assoc]

/-- C10: `new_block` called without a `previous_hash` argument uses the
default `None`: the appended block's `previous_hash` is `None` — not the
hash string of the preceding block — and the genesis block's
`previous_hash` is the integer 1, not a digest string either. -/
theorem default_previous_hash_is_none :
    (∀ (bc : Blockchain) (ts : String) (p : Int),
      (bc.new_block_default ts p).1.previous_hash = PrevHash.null ∧
      (bc.new_block_default ts p).2.chain = bc.chain ++ [(bc.new_block_default ts p).1] ∧
      ∀ s : String, (bc.new_block_default ts p).1.previous_hash ≠ PrevHash.str s) ∧
    (∀ ts : String, (Blockchain.init ts).chain.map Block.previous_hash = [PrevHash.int 1] ∧
      ∀ s : String, PrevHash.int 1 ≠ PrevHash.str s) :=
  ⟨fun _ _ _ => ⟨rfl, rfl, fun _ h => PrevHash.noConfusion h⟩,
   fun _ => ⟨rfl, fun _ h => PrevHash.noConfusion h⟩⟩
